import Mathlib

/-!
Verification of the cookcli repository against its natural-language
specification.

The repository sources available are `src/main.rs`, `src/seed.rs` and
`src/server/handlers/recipes.rs`.  The shopping-list aggregation engine
described by the specification (quantity model, unit conversion, ingredient
grouping, cross-recipe aggregation, aisle categorization, list assembly)
lives in modules (`shopping_list.rs`, `util.rs`, and the `cooklang` crate)
that are not part of the provided sources; those parts are modelled from the
specification, and each such definition is marked `Modelled from the spec:`.
Definitions taken directly from the provided Rust sources reference the file
and function they embed.

Rust `char` values are represented as Unicode code points (`Nat`); the
character classes (`char::is_alphanumeric`, `char::is_whitespace`,
`char::to_lowercase`) are modelled on their ASCII fragment.  Rust `f64`
quantity values are modelled as exact rationals (`ℚ`).
-/

namespace CookCLI

/-! ## Filename sanitization (`save_recipe`, src/server/handlers/recipes.rs)

The Rust code builds the filename from the title as

  title.chars().map(|c| if c.is_alphanumeric() || c == ' ' { c } else { '-' })
  then `.trim()`, `.replace(' ', "-")`, `.to_lowercase()`, and appends ".cook".
-/

/-- ASCII fragment of Rust `char::is_alphanumeric` on code points:
letters `a`-`z`, `A`-`Z` and digits `0`-`9`. -/
def isAlnumCp (n : Nat) : Bool :=
  decide ((97 ≤ n ∧ n ≤ 122) ∨ (65 ≤ n ∧ n ≤ 90) ∨ (48 ≤ n ∧ n ≤ 57))

/-- ASCII fragment of Rust `char::is_whitespace` on code points. -/
def isWsCp (n : Nat) : Bool :=
  decide (n = 32 ∨ n = 9 ∨ n = 10 ∨ n = 11 ∨ n = 12 ∨ n = 13)

/-- One step of the `save_recipe` character map: keep alphanumerics and the
space, replace everything else by `-` (code point 45). -/
def safeCp (n : Nat) : Nat :=
  if isAlnumCp n || decide (n = 32) then n else 45

/-- Rust `str::trim`: drop leading and trailing whitespace. -/
def trimCps (l : List Nat) : List Nat :=
  ((l.dropWhile isWsCp).reverse.dropWhile isWsCp).reverse

/-- ASCII fragment of Rust `char::to_lowercase`. -/
def toLowerCp (n : Nat) : Nat :=
  if 65 ≤ n ∧ n ≤ 90 then n + 32 else n

/-- The code points of the `".cook"` extension. -/
def dotCook : List Nat := [46, 99, 111, 111, 107]

/-- Filename generation of `save_recipe` (src/server/handlers/recipes.rs):
map to safe characters, trim, replace spaces by dashes, lowercase, append
`".cook"`. -/
def save_filename (title : List Nat) : List Nat :=
  (((trimCps (title.map safeCp)).map (fun n => if n = 32 then 45 else n)).map toLowerCp)
    ++ dotCook

/-- A code point allowed in the generated filename stem: lowercase letter,
digit, or dash. -/
def isSafeOutCp (n : Nat) : Bool :=
  decide ((97 ≤ n ∧ n ≤ 122) ∨ (48 ≤ n ∧ n ≤ 57) ∨ n = 45)

theorem mem_of_mem_dropWhile {α : Type} {p : α → Bool} {l : List α} {a : α}
    (h : a ∈ l.dropWhile p) : a ∈ l := by
  induction l with
  | nil => simp at h
  | cons x xs ih =>
    rw [List.dropWhile_cons] at h
    by_cases hp : p x = true
    · rw [if_pos hp] at h
      exact List.mem_cons_of_mem x (ih h)
    · rw [if_neg hp] at h
      exact h

theorem mem_of_mem_trimCps {n : Nat} {l : List Nat} (h : n ∈ trimCps l) : n ∈ l := by
  unfold trimCps at h
  rw [List.mem_reverse] at h
  have h2 := mem_of_mem_dropWhile h
  rw [List.mem_reverse] at h2
  exact mem_of_mem_dropWhile h2

theorem safeCp_range (c : Nat) :
    safeCp c = 45 ∨ (97 ≤ safeCp c ∧ safeCp c ≤ 122) ∨ (65 ≤ safeCp c ∧ safeCp c ≤ 90) ∨
      (48 ≤ safeCp c ∧ safeCp c ≤ 57) ∨ safeCp c = 32 := by
  unfold safeCp isAlnumCp
  split
  · rename_i hsp
    simp only [Bool.or_eq_true, decide_eq_true_eq] at hsp
    omega
  · omega

theorem pipe_safe (k : Nat)
    (hk : k = 45 ∨ (97 ≤ k ∧ k ≤ 122) ∨ (65 ≤ k ∧ k ≤ 90) ∨ (48 ≤ k ∧ k ≤ 57) ∨ k = 32) :
    isSafeOutCp (toLowerCp (if k = 32 then 45 else k)) = true := by
  unfold toLowerCp isSafeOutCp
  rw [decide_eq_true_eq]
  split <;> split <;> omega

/-- C10: for every title, the filename generated by `save_recipe` is a stem
of lowercase-alphanumeric-or-dash code points followed by `".cook"`, and the
path separator `/` (code point 47) never occurs in it, so the written file is
a direct child of the server base path. -/
theorem c10_save_filename (title : List Nat) :
    ∃ stem : List Nat,
      save_filename title = stem ++ dotCook ∧
      stem.all isSafeOutCp = true ∧
      47 ∉ save_filename title := by
  refine ⟨((trimCps (title.map safeCp)).map (fun n => if n = 32 then 45 else n)).map toLowerCp,
    rfl, ?_, ?_⟩
  · rw [List.all_eq_true]
    intro n hn
    rw [List.mem_map] at hn
    obtain ⟨m, hm, hml⟩ := hn
    rw [List.mem_map] at hm
    obtain ⟨k, hk, hkm⟩ := hm
    have hk2 : k ∈ title.map safeCp := mem_of_mem_trimCps hk
    rw [List.mem_map] at hk2
    obtain ⟨c, _, hck⟩ := hk2
    subst hkm hml
    rw [← hck]
    exact pipe_safe (safeCp c) (safeCp_range c)
  · intro hmem
    unfold save_filename at hmem
    rw [List.mem_append] at hmem
    rcases hmem with hmem | hmem
    · rw [List.mem_map] at hmem
      obtain ⟨m, hm, hml⟩ := hmem
      rw [List.mem_map] at hm
      obtain ⟨k, hk, hkm⟩ := hm
      have hk2 : k ∈ title.map safeCp := mem_of_mem_trimCps hk
      rw [List.mem_map] at hk2
      obtain ⟨c, _, hck⟩ := hk2
      subst hkm
      have hsafe := pipe_safe k (by rw [← hck]; exact safeCp_range c)
      rw [hml] at hsafe
      unfold isSafeOutCp at hsafe
      rw [decide_eq_true_eq] at hsafe
      omega
    · simp [dotCook] at hmem

/-! ## Path validation (`check_path` and the `recipe` handler,
src/server/handlers/recipes.rs)

`Utf8Path::components` (camino, Unix rules): a leading `/` yields a root
component, a leading `.` (alone or followed by `/`) yields a current-dir
component, interior `.` segments and empty segments are dropped, `..`
segments yield parent-dir components, and everything else is a normal
component.  Paths are code-point lists; `/` is 47 and `.` is 46. -/

inductive Utf8Component where
  | rootDir : Utf8Component
  | curDir : Utf8Component
  | parentDir : Utf8Component
  | normal : List Nat → Utf8Component
deriving DecidableEq

/-- Split a code-point list on `/` (47), like `str::split('/')`:
the empty path yields one empty segment, and separators at either end
yield empty segments. -/
def splitOnSlash : List Nat → List (List Nat)
  | [] => [[]]
  | c :: rest =>
    if c = 47 then [] :: splitOnSlash rest
    else
      match splitOnSlash rest with
      | [] => [[c]]
      | s :: ss => (c :: s) :: ss

/-- Classify one non-empty, non-`.` path segment. -/
def componentSeg (s : List Nat) : Utf8Component :=
  if s = [46, 46] then Utf8Component.parentDir else Utf8Component.normal s

/-- The component list of a path, following `Utf8Path::components`. -/
def components (p : List Nat) : List Utf8Component :=
  (if p.head? = some 47 then [Utf8Component.rootDir] else [])
    ++ (if p = [46] ∨ p.take 2 = [46, 47] then [Utf8Component.curDir] else [])
    ++ ((splitOnSlash p).filter (fun s => s ≠ [] ∧ s ≠ [46])).map componentSeg

/-- Whether a component is `Utf8Component::Normal(_)`. -/
def isNormalComp : Utf8Component → Bool
  | Utf8Component.normal _ => true
  | _ => false

/-- HTTP status codes used by the handler. -/
def BAD_REQUEST : Nat := 400

def NOT_FOUND : Nat := 404

def INTERNAL_SERVER_ERROR : Nat := 500

/-- `check_path` from src/server/handlers/recipes.rs: reject with 400 unless
every component of the path is a normal component. -/
def check_path (p : List Nat) : Except Nat Unit :=
  if (components p).all isNormalComp then Except.ok () else Except.error BAD_REQUEST

/-- The `recipe` handler from src/server/handlers/recipes.rs, with the two
external effects abstracted as oracles: `getRecipe` models
`cooklang_find::get_recipe` (`none` = lookup failure, mapped to 404) and
`parseRecipe` models `parse_recipe_from_entry` (`none` = parse failure,
mapped to 500).  `check_path` runs first; only afterwards is the recipe
looked up and parsed. -/
def recipeHandler (getRecipe : List Nat → Option String)
    (parseRecipe : String → Option String) (path : List Nat) : Except Nat String :=
  match check_path path with
  | Except.error s => Except.error s
  | Except.ok _ =>
    match getRecipe path with
    | none => Except.error NOT_FOUND
    | some entry =>
      match parseRecipe entry with
      | none => Except.error INTERNAL_SERVER_ERROR
      | some recipe => Except.ok recipe

/-- C9: the recipe handler answers 400 exactly when the path has a component
that is not a normal component, and for such paths the reply is 400 no
matter how the recipe-lookup and parse oracles behave (the rejection happens
before any lookup). -/
theorem c9_recipe_handler (g : List Nat → Option String) (p : String → Option String)
    (path : List Nat) :
    (recipeHandler g p path = Except.error BAD_REQUEST ↔
      (components path).all isNormalComp = false) ∧
    ((components path).all isNormalComp = false →
      ∀ (g2 : List Nat → Option String) (p2 : String → Option String),
        recipeHandler g2 p2 path = Except.error BAD_REQUEST) := by
  have hbad : ∀ (g2 : List Nat → Option String) (p2 : String → Option String),
      (components path).all isNormalComp = false →
      recipeHandler g2 p2 path = Except.error BAD_REQUEST := by
    intro g2 p2 h
    unfold recipeHandler check_path
    rw [if_neg (by rw [h]; exact Bool.false_ne_true)]
  constructor
  · constructor
    · intro h
      by_cases hc : (components path).all isNormalComp = true
      · exfalso
        unfold recipeHandler check_path at h
        rw [if_pos hc] at h
        dsimp only at h
        cases hg : g path with
        | none =>
          rw [hg] at h
          dsimp only at h
          rw [Except.error.injEq] at h
          exact absurd h (by decide)
        | some entry =>
          rw [hg] at h
          dsimp only at h
          cases hp : p entry with
          | none =>
            rw [hp] at h
            dsimp only at h
            rw [Except.error.injEq] at h
            exact absurd h (by decide)
          | some r =>
            rw [hp] at h
            dsimp only at h
            exact absurd h (by simp)
      · rw [Bool.not_eq_true] at hc
        exact hc
    · intro h
      exact hbad g p h
  · intro h g2 p2
    exact hbad g2 p2 h

/-- Witness for C9 at concrete inputs: the traversal path `"../secret"` is
rejected with 400 under any oracles, and the plain path `"a/b"` is not
rejected with 400.  (`[46,46,47,115]` is `"../s"`; `[97,47,98]` is `"a/b"`.) -/
theorem c9_recipe_handler_witness :
    recipeHandler (fun _ => none) (fun _ => none) [46, 46, 47, 115] =
      Except.error BAD_REQUEST ∧
    ¬ recipeHandler (fun _ => some "e") (fun _ => some "r") [97, 47, 98] =
      Except.error BAD_REQUEST := by
  constructor
  · exact (c9_recipe_handler (fun _ => none) (fun _ => none) [46, 46, 47, 115]).2 (by decide)
      (fun _ => none) (fun _ => none)
  · intro h
    have h2 := (c9_recipe_handler (fun _ => some "e") (fun _ => some "r") [97, 47, 98]).1.mp h
    rw [show (components [97, 47, 98]).all isNormalComp = true by decide] at h2
    simp at h2

/-! ## Quantity model and aggregation engine

The shopping-list core (spec sections 3, 4.1-4.4) is not part of the
provided sources (`shopping_list.rs` and the grouping code of the
`cooklang` crate are missing); it is modelled from the spec below.
Ingredient names are code-point lists so that the case-insensitive name
matching stays computable; units, dimensions, recipe ids and categories
are strings, of which only equality is used. -/

abbrev RecipeId := String

/-- Modelled from the spec: a quantity value is a number or the
distinguished "unspecified" amount (spec section 3, Quantity). -/
inductive Value where
  | num : ℚ → Value
  | unspecified : Value
deriving DecidableEq

/-- Modelled from the spec: `Quantity = { value, unit: Option<UnitName> }`
(spec section 3). -/
structure Quantity where
  value : Value
  unit : Option String
deriving DecidableEq

/-- Modelled from the spec: the unit conversion table maps a unit name to
its dimension and the numeric ratio to the canonical unit of that
dimension (spec section 4.2). -/
abbrev UnitTable := List (String × String × ℚ)

/-- Modelled from the spec: `resolve(unit) -> Option<(Dimension, ratio)>`
(spec section 4.2). -/
def resolveUnit (t : UnitTable) (u : String) : Option (String × ℚ) :=
  (t.find? (fun e => decide (e.1 = u))).map (fun e => e.2)

/-- Modelled from the spec: the result of `try_add`
(`Result<Quantity, Incompatible>`, spec section 4.1). -/
inductive AddResult where
  | ok : Quantity → AddResult
  | incompatible : AddResult
deriving DecidableEq

/-- Modelled from the spec (section 4.1): `try_add`.  If either quantity is
unspecified the result is unspecified (absorbing).  Otherwise, identical
units (including both absent, and identical opaque unit strings) are summed
directly; different units that both resolve to the same dimension are
summed after converting the second operand into the first operand's unit
(policy: normalize to the first operand's unit); anything else is
incompatible. -/
def try_add (t : UnitTable) (a b : Quantity) : AddResult :=
  match a.value, b.value with
  | Value.unspecified, _ => AddResult.ok ⟨Value.unspecified, none⟩
  | _, Value.unspecified => AddResult.ok ⟨Value.unspecified, none⟩
  | Value.num x, Value.num y =>
    if a.unit = b.unit then AddResult.ok ⟨Value.num (x + y), a.unit⟩
    else
      match a.unit, b.unit with
      | some ua, some ub =>
        match resolveUnit t ua, resolveUnit t ub with
        | some (da, ra), some (db, rb) =>
          if da = db then AddResult.ok ⟨Value.num (x + y * rb / ra), some ua⟩
          else AddResult.incompatible
        | _, _ => AddResult.incompatible
      | _, _ => AddResult.incompatible

/-- Modelled from the spec: one ingredient occurrence of a scaled recipe
(spec section 3, IngredientOccurrence). -/
structure IngredientOccurrence where
  name : List Nat
  quantity : Quantity
  recipe_ref : RecipeId
deriving DecidableEq

/-- Modelled from the spec: an aggregated ingredient with its ordered
quantity groups and contributing recipe ids (spec section 3,
AggregatedIngredient). -/
structure AggregatedIngredient where
  name : List Nat
  quantities : List Quantity
  sources : List RecipeId
deriving DecidableEq

/-- Modelled from the spec (section 4.3): merge a quantity into the first
compatible quantity group, or append a new group when none is compatible. -/
def mergeQuantity (t : UnitTable) (q : Quantity) : List Quantity → List Quantity
  | [] => [q]
  | g :: gs =>
    match try_add t g q with
    | AddResult.ok m => m :: gs
    | AddResult.incompatible => g :: mergeQuantity t q gs

/-- Modelled from the spec (section 4.4): `sources` accumulates recipe ids
with set semantics (duplicates do not double-count). -/
def addSource (r : RecipeId) (s : List RecipeId) : List RecipeId :=
  if r ∈ s then s else s ++ [r]

/-- The lowercased form of an ingredient name (case-insensitive matching,
spec sections 4.3-4.5). -/
def lowerName (n : List Nat) : List Nat := n.map toLowerCp

/-- Modelled from the spec (sections 4.3 and 4.4): process one occurrence
against the running aggregation state: merge into the existing entry with
the same case-insensitive name, or append a new entry. -/
def addOccurrence (t : UnitTable) (o : IngredientOccurrence) :
    List AggregatedIngredient → List AggregatedIngredient
  | [] => [⟨o.name, [o.quantity], [o.recipe_ref]⟩]
  | e :: es =>
    if lowerName e.name = lowerName o.name then
      ⟨e.name, mergeQuantity t o.quantity e.quantities,
        addSource o.recipe_ref e.sources⟩ :: es
    else
      e :: addOccurrence t o es

/-- Fold a list of occurrences into a starting aggregation state. -/
def aggregateFrom (t : UnitTable) (start : List AggregatedIngredient)
    (os : List IngredientOccurrence) : List AggregatedIngredient :=
  os.foldl (fun acc o => addOccurrence t o acc) start

/-- Modelled from the spec (sections 4.3 and 4.4): aggregate a list of
occurrences, in order, starting from the empty state. -/
def aggregate (t : UnitTable) (os : List IngredientOccurrence) :
    List AggregatedIngredient :=
  aggregateFrom t [] os

/-- Modelled from the spec (section 6): a recipe is an id together with its
ordered, already-scaled ingredient list. -/
abbrev Recipe := RecipeId × List (List Nat × Quantity)

/-- The occurrences contributed by one recipe. -/
def occurrencesOf (r : Recipe) : List IngredientOccurrence :=
  r.2.map (fun p => ⟨p.1, p.2, r.1⟩)

/-- Modelled from the spec (section 4.4): cross-recipe aggregation in
caller-supplied order. -/
def aggregateRecipes (t : UnitTable) (rs : List Recipe) : List AggregatedIngredient :=
  aggregate t (rs.map occurrencesOf).flatten

theorem mergeQuantity_nil (t : UnitTable) (q : Quantity) : mergeQuantity t q [] = [q] := rfl

theorem mergeQuantity_cons_ok (t : UnitTable) (q g m : Quantity) (gs : List Quantity)
    (h : try_add t g q = AddResult.ok m) :
    mergeQuantity t q (g :: gs) = m :: gs := by
  unfold mergeQuantity
  rw [h]

theorem mergeQuantity_cons_incompat (t : UnitTable) (q g : Quantity) (gs : List Quantity)
    (h : try_add t g q = AddResult.incompatible) :
    mergeQuantity t q (g :: gs) = g :: mergeQuantity t q gs := by
  conv_lhs => rw [mergeQuantity]
  rw [h]

theorem addOccurrence_nil (t : UnitTable) (o : IngredientOccurrence) :
    addOccurrence t o [] = [⟨o.name, [o.quantity], [o.recipe_ref]⟩] := rfl

theorem addOccurrence_cons_match (t : UnitTable) (o : IngredientOccurrence)
    (e : AggregatedIngredient) (es : List AggregatedIngredient)
    (h : lowerName e.name = lowerName o.name) :
    addOccurrence t o (e :: es) =
      ⟨e.name, mergeQuantity t o.quantity e.quantities,
        addSource o.recipe_ref e.sources⟩ :: es := by
  unfold addOccurrence
  rw [if_pos h]

theorem addOccurrence_cons_nomatch (t : UnitTable) (o : IngredientOccurrence)
    (e : AggregatedIngredient) (es : List AggregatedIngredient)
    (h : ¬ lowerName e.name = lowerName o.name) :
    addOccurrence t o (e :: es) = e :: addOccurrence t o es := by
  conv_lhs => rw [addOccurrence]
  rw [if_neg h]

/-- C1: adding two numeric quantities that carry the same known unit
succeeds and yields the sum of the values in that same unit. -/
theorem c1_try_add_same_unit (t : UnitTable) (a b : Quantity) (x y : ℚ) (u : String)
    (hx : a.value = Value.num x) (hy : b.value = Value.num y)
    (hau : a.unit = some u) (hbu : b.unit = some u)
    (_hknown : (resolveUnit t u).isSome = true) :
    try_add t a b = AddResult.ok ⟨Value.num (x + y), some u⟩ := by
  obtain ⟨va, ua⟩ := a
  obtain ⟨vb, ub⟩ := b
  simp only at hx hy hau hbu
  subst hx hy hau hbu
  unfold try_add
  simp only [if_true]

/-- Witness for C1: 2 g + 3 g = 5 g. -/
theorem c1_try_add_same_unit_witness :
    try_add [("g", ("mass", 1))] ⟨Value.num 2, some "g"⟩ ⟨Value.num 3, some "g"⟩ =
      AddResult.ok ⟨Value.num (2 + 3), some "g"⟩ :=
  c1_try_add_same_unit [("g", ("mass", 1))] _ _ 2 3 "g" rfl rfl rfl rfl (by decide)

/-- The conversion table of the flour scenario: grams are canonical for
mass, a cup is 240 g. -/
def flourTable : UnitTable := [("g", ("mass", 1)), ("cup", ("mass", 240))]

/-- The code points of `"flour"`. -/
def flourName : List Nat := [102, 108, 111, 117, 114]

/-- Recipe `r1`: 200 g of flour. -/
def flourRecipeG : Recipe := ("r1", [(flourName, ⟨Value.num 200, some "g"⟩)])

/-- Recipe `r2`: 1 cup of flour. -/
def flourRecipeCup : Recipe := ("r2", [(flourName, ⟨Value.num 1, some "cup"⟩)])

/-- C2: adding two numeric quantities with different units of the same
dimension converts the second operand into the first operand's unit and
sums; in particular 200 g of flour and 1 cup of flour (cup = 240 g) merge
into a single 440 g entry. -/
theorem c2_try_add_convert (t : UnitTable) (a b : Quantity) (x y ra rb : ℚ)
    (ua ub d : String)
    (hx : a.value = Value.num x) (hy : b.value = Value.num y)
    (hau : a.unit = some ua) (hbu : b.unit = some ub) (hne : ua ≠ ub)
    (hra : resolveUnit t ua = some (d, ra)) (hrb : resolveUnit t ub = some (d, rb)) :
    try_add t a b = AddResult.ok ⟨Value.num (x + y * rb / ra), some ua⟩ ∧
    aggregateRecipes flourTable [flourRecipeG, flourRecipeCup] =
      [⟨flourName, [⟨Value.num 440, some "g"⟩], ["r1", "r2"]⟩] := by
  constructor
  · obtain ⟨va, uza⟩ := a
    obtain ⟨vb, uzb⟩ := b
    simp only at hx hy hau hbu
    subst hx hy hau hbu
    unfold try_add
    simp only
    rw [if_neg (by simp [hne]), hra, hrb]
    simp only [if_true]
  · norm_num +decide [aggregateRecipes, aggregate, aggregateFrom, occurrencesOf,
      addOccurrence, mergeQuantity, try_add, resolveUnit, addSource,
      flourTable, flourRecipeG, flourRecipeCup]

/-- Witness for C2: 200 g + 1 cup under the flour table, conversion into
grams, plus the flour merge scenario. -/
theorem c2_try_add_convert_witness :
    try_add flourTable ⟨Value.num 200, some "g"⟩ ⟨Value.num 1, some "cup"⟩ =
      AddResult.ok ⟨Value.num (200 + 1 * 240 / 1), some "g"⟩ ∧
    aggregateRecipes flourTable [flourRecipeG, flourRecipeCup] =
      [⟨flourName, [⟨Value.num 440, some "g"⟩], ["r1", "r2"]⟩] :=
  c2_try_add_convert flourTable ⟨Value.num 200, some "g"⟩ ⟨Value.num 1, some "cup"⟩
    200 1 1 240 "g" "cup" "mass" rfl rfl rfl rfl (by decide) (by decide) (by decide)

/-- C3: if either quantity is unspecified, `try_add` yields the unspecified
quantity, and the two occurrences of one ingredient merge into a single
entry with a single unspecified quantity group (absorbing rule). -/
theorem c3_unspecified_absorbing (t : UnitTable) (a b : Quantity) (nm : List Nat)
    (r1 r2 : RecipeId)
    (h : a.value = Value.unspecified ∨ b.value = Value.unspecified) :
    try_add t a b = AddResult.ok ⟨Value.unspecified, none⟩ ∧
    aggregate t [⟨nm, a, r1⟩, ⟨nm, b, r2⟩] =
      [⟨nm, [⟨Value.unspecified, none⟩], addSource r2 [r1]⟩] := by
  have h1 : try_add t a b = AddResult.ok ⟨Value.unspecified, none⟩ := by
    obtain ⟨va, uza⟩ := a
    obtain ⟨vb, uzb⟩ := b
    simp only at h
    rcases h with h | h
    · subst h
      cases vb <;> rfl
    · subst h
      cases va <;> rfl
  refine ⟨h1, ?_⟩
  unfold aggregate aggregateFrom
  simp only [List.foldl_cons, List.foldl_nil]
  rw [addOccurrence_nil, addOccurrence_cons_match t _ _ _ rfl]
  dsimp only
  rw [mergeQuantity_cons_ok t b a _ [] h1]

/-- Witness for C3: "to taste" salt plus 1 tsp salt merges into a single
unspecified entry.  (`[115,97,108,116]` is `"salt"`.) -/
theorem c3_unspecified_absorbing_witness :
    try_add [] ⟨Value.unspecified, none⟩ ⟨Value.num 1, some "tsp"⟩ =
      AddResult.ok ⟨Value.unspecified, none⟩ ∧
    aggregate [] [⟨[115, 97, 108, 116], ⟨Value.unspecified, none⟩, "r1"⟩,
        ⟨[115, 97, 108, 116], ⟨Value.num 1, some "tsp"⟩, "r2"⟩] =
      [⟨[115, 97, 108, 116], [⟨Value.unspecified, none⟩], addSource "r2" ["r1"]⟩] :=
  c3_unspecified_absorbing [] ⟨Value.unspecified, none⟩ ⟨Value.num 1, some "tsp"⟩
    [115, 97, 108, 116] "r1" "r2" (Or.inl rfl)

/-- A table with two dimensions, used to exhibit quantities of different
dimensions. -/
def gmlTable : UnitTable := [("g", ("mass", 1)), ("ml", ("volume", 1))]

/-- Counterexample to C4 as stated: a quantity whose value is unspecified
but whose unit is `g` (mass), added to 1 ml (volume), does not give
`Incompatible` — the unspecified-absorbing rule of the spec (section 4.1)
takes precedence and `try_add` succeeds. -/
theorem c4_counterexample :
    resolveUnit gmlTable "g" = some ("mass", 1) ∧
    resolveUnit gmlTable "ml" = some ("volume", 1) ∧
    ("mass" : String) ≠ "volume" ∧
    try_add gmlTable ⟨Value.unspecified, some "g"⟩ ⟨Value.num 1, some "ml"⟩ ≠
      AddResult.incompatible := by
  refine ⟨by decide, by decide, by decide, ?_⟩
  intro h
  simp only [try_add] at h
  exact AddResult.noConfusion h

/-- C4 (amended: both quantities numeric): adding two numeric quantities
whose units resolve to different dimensions is `Incompatible`, and the two
occurrences stay as two separate quantity groups of a single aggregated
ingredient — aggregation still returns normally, the incompatibility is
recovered locally. -/
theorem c4_incompatible_dimensions (t : UnitTable) (a b : Quantity) (x y ra rb : ℚ)
    (ua ub da db : String) (nm : List Nat) (r1 r2 : RecipeId)
    (hx : a.value = Value.num x) (hy : b.value = Value.num y)
    (hau : a.unit = some ua) (hbu : b.unit = some ub)
    (hra : resolveUnit t ua = some (da, ra)) (hrb : resolveUnit t ub = some (db, rb))
    (hdim : da ≠ db) :
    try_add t a b = AddResult.incompatible ∧
    aggregate t [⟨nm, a, r1⟩, ⟨nm, b, r2⟩] =
      [⟨nm, [a, b], addSource r2 [r1]⟩] := by
  have hne : ua ≠ ub := by
    intro heq
    subst heq
    rw [hra] at hrb
    exact hdim (by injection hrb with h2; exact congrArg Prod.fst h2)
  have h1 : try_add t a b = AddResult.incompatible := by
    obtain ⟨va, uza⟩ := a
    obtain ⟨vb, uzb⟩ := b
    simp only at hx hy hau hbu
    subst hx hy hau hbu
    unfold try_add
    simp only
    rw [if_neg (by simp [hne]), hra, hrb]
    simp only
    rw [if_neg hdim]
  refine ⟨h1, ?_⟩
  unfold aggregate aggregateFrom
  simp only [List.foldl_cons, List.foldl_nil]
  rw [addOccurrence_nil, addOccurrence_cons_match t _ _ _ rfl]
  dsimp only
  rw [mergeQuantity_cons_incompat t b a [] h1, mergeQuantity_nil]

/-- Witness for C4 (amended): 2 g and 3 ml stay separate groups of one
`salt` entry. -/
theorem c4_incompatible_dimensions_witness :
    try_add gmlTable ⟨Value.num 2, some "g"⟩ ⟨Value.num 3, some "ml"⟩ =
      AddResult.incompatible ∧
    aggregate gmlTable [⟨[115, 97, 108, 116], ⟨Value.num 2, some "g"⟩, "r1"⟩,
        ⟨[115, 97, 108, 116], ⟨Value.num 3, some "ml"⟩, "r2"⟩] =
      [⟨[115, 97, 108, 116], [⟨Value.num 2, some "g"⟩, ⟨Value.num 3, some "ml"⟩],
        addSource "r2" ["r1"]⟩] :=
  c4_incompatible_dimensions gmlTable ⟨Value.num 2, some "g"⟩ ⟨Value.num 3, some "ml"⟩
    2 3 1 1 "g" "ml" "mass" "volume" [115, 97, 108, 116] "r1" "r2"
    rfl rfl rfl rfl (by decide) (by decide) (by decide)

/-! ## Aisle categorizer and shopping-list assembler (spec sections 4.5, 4.6) -/

/-- Modelled from the spec (section 3): the aisle mapping is an ordered
sequence of (ingredient-name pattern, category name); the first matching
pattern wins. -/
abbrev AisleMapping := List (List Nat × String)

/-- Modelled from the spec (section 4.5): case-insensitive matching of a
pattern against an ingredient name; either an exact match or a prefix match
followed by a word boundary (modelled as a space, code point 32 — the spec
leaves the exact boundary rule as a documented design choice). -/
def matchesPat (pat nm : List Nat) : Bool :=
  decide (lowerName pat = lowerName nm) ||
    decide ((lowerName nm).take ((lowerName pat).length + 1) = lowerName pat ++ [32])

/-- Modelled from the spec (section 4.5): first matching pattern in file
order assigns the category. -/
def categorize (m : AisleMapping) (nm : List Nat) : Option String :=
  (m.find? (fun p => matchesPat p.1 nm)).map (fun p => p.2)

/-- Modelled from the spec (sections 4.5 and 6): an absent or unreadable
mapping is `none`; categorization under an optional mapping. -/
def catOf (m : Option AisleMapping) (nm : List Nat) : Option String :=
  m.bind (fun mp => categorize mp nm)

/-- Modelled from the spec (section 3): a category of the shopping list. -/
structure Category where
  name : String
  ingredients : List AggregatedIngredient
deriving DecidableEq

/-- Append an ingredient to the category with the given name, keeping the
category order; create the category at the end when it does not exist yet. -/
def insertCat : List Category → String → AggregatedIngredient → List Category
  | [], c, i => [⟨c, [i]⟩]
  | k :: ks, c, i =>
    if k.name = c then ⟨k.name, k.ingredients ++ [i]⟩ :: ks
    else k :: insertCat ks c i

/-- Modelled from the spec (section 4.6): one assembler step over the
aggregated ingredients, collecting unmatched ingredients separately for the
trailing "uncategorized" category. -/
def assembleStep (m : Option AisleMapping)
    (acc : List Category × List AggregatedIngredient) (i : AggregatedIngredient) :
    List Category × List AggregatedIngredient :=
  match catOf m i.name with
  | some c => (insertCat acc.1 c i, acc.2)
  | none => (acc.1, acc.2 ++ [i])

/-- Modelled from the spec (section 4.6): assemble the shopping list;
categories in first-appearance order, the "uncategorized" category last. -/
def assemble (m : Option AisleMapping) (ings : List AggregatedIngredient) :
    List Category :=
  let p := ings.foldl (assembleStep m) ([], [])
  p.1 ++ (if p.2.isEmpty then [] else [⟨"uncategorized", p.2⟩])

/-- `Context::aisle` from src/main.rs: use the local `config/aisle.conf`
when it is a file, else the global one when it is a file, else `none`. -/
def contextAisle (localIsFile globalIsFile : Bool) (localPath globalPath : String) :
    Option String :=
  if localIsFile then some localPath
  else if globalIsFile then some globalPath else none

theorem foldl_assembleStep_all_none (m : Option AisleMapping)
    (hm : ∀ nm, catOf m nm = none) :
    ∀ (ings : List AggregatedIngredient) (C : List Category)
      (U : List AggregatedIngredient),
      ings.foldl (assembleStep m) (C, U) = (C, U ++ ings) := by
  intro ings
  induction ings with
  | nil => intro C U; simp
  | cons i ings ih =>
    intro C U
    rw [List.foldl_cons]
    have hstep : assembleStep m (C, U) i = (C, U ++ [i]) := by
      unfold assembleStep
      rw [hm i.name]
    rw [hstep, ih]
    simp

/-- C7: when the aisle mapping is absent or unreadable (`Context::aisle`
finds no file and yields `none`) or empty, assembly places every aggregated
ingredient in the single "uncategorized" category, and still returns
normally. -/
theorem c7_missing_mapping_degrades (lp gp : String) (ings : List AggregatedIngredient) :
    contextAisle false false lp gp = none ∧
    assemble none ings = (if ings.isEmpty then [] else [⟨"uncategorized", ings⟩]) ∧
    assemble (some []) ings = (if ings.isEmpty then [] else [⟨"uncategorized", ings⟩]) := by
  refine ⟨rfl, ?_, ?_⟩
  · unfold assemble
    rw [foldl_assembleStep_all_none none (fun _ => rfl)]
    simp
  · unfold assemble
    rw [foldl_assembleStep_all_none (some []) (fun _ => rfl)]
    simp

/-- First-appearance deduplication: keep the first occurrence of each
element, in order. -/
def dedupFirst {α : Type} [DecidableEq α] (l : List α) : List α :=
  l.foldl (fun acc n => if n ∈ acc then acc else acc ++ [n]) []

theorem dedupFirst_concat {α : Type} [DecidableEq α] (l : List α) (n : α) :
    dedupFirst (l ++ [n]) =
      if n ∈ dedupFirst l then dedupFirst l else dedupFirst l ++ [n] := by
  unfold dedupFirst
  rw [List.foldl_append]
  rfl

theorem mem_dedupFirst {α : Type} [DecidableEq α] (l : List α) :
    ∀ x, x ∈ dedupFirst l ↔ x ∈ l := by
  induction l using List.reverseRecOn with
  | nil => exact fun x => Iff.rfl
  | append_singleton l n ih =>
    intro x
    rw [dedupFirst_concat]
    by_cases hn : n ∈ dedupFirst l
    · rw [if_pos hn]
      rw [ih n] at hn
      rw [ih x]
      simp only [List.mem_append, List.mem_singleton]
      constructor
      · exact fun h => Or.inl h
      · intro h
        rcases h with h | h
        · exact h
        · subst h
          exact hn
    · rw [if_neg hn]
      simp only [List.mem_append, List.mem_singleton, ih x]

theorem nodup_dedupFirst {α : Type} [DecidableEq α] (l : List α) :
    (dedupFirst l).Nodup := by
  induction l using List.reverseRecOn with
  | nil => exact List.nodup_nil
  | append_singleton l n ih =>
    rw [dedupFirst_concat]
    by_cases hn : n ∈ dedupFirst l
    · rw [if_pos hn]
      exact ih
    · rw [if_neg hn]
      rw [List.nodup_append]
      refine ⟨ih, List.nodup_singleton n, ?_⟩
      intro a ha hb
      rw [List.mem_singleton] at hb
      subst hb
      exact hn ha

/-- The category-building part of one assembler step. -/
def catStep (m : Option AisleMapping) (C : List Category) (i : AggregatedIngredient) :
    List Category :=
  match catOf m i.name with
  | some c => insertCat C c i
  | none => C

theorem foldl_assembleStep_split (m : Option AisleMapping) :
    ∀ (ings : List AggregatedIngredient) (C : List Category)
      (U : List AggregatedIngredient),
      ings.foldl (assembleStep m) (C, U) =
        (ings.foldl (catStep m) C,
          U ++ ings.filter (fun i => (catOf m i.name).isNone)) := by
  intro ings
  induction ings with
  | nil =>
    intro C U
    simp
  | cons i ings ih =>
    intro C U
    rw [List.foldl_cons, List.foldl_cons]
    cases hc : catOf m i.name with
    | none =>
      have hstep : assembleStep m (C, U) i = (C, U ++ [i]) := by
        unfold assembleStep
        rw [hc]
      have hcat : catStep m C i = C := by
        unfold catStep
        rw [hc]
      rw [hstep, hcat, ih, List.filter_cons]
      simp [hc]
    | some c =>
      have hstep : assembleStep m (C, U) i = (insertCat C c i, U) := by
        unfold assembleStep
        rw [hc]
      have hcat : catStep m C i = insertCat C c i := by
        unfold catStep
        rw [hc]
      rw [hstep, hcat, ih, List.filter_cons]
      simp [hc]

theorem insertCat_cons_eq (k : Category) (ks : List Category) (c : String)
    (i : AggregatedIngredient) (h : k.name = c) :
    insertCat (k :: ks) c i = ⟨k.name, k.ingredients ++ [i]⟩ :: ks := by
  unfold insertCat
  rw [if_pos h]

theorem insertCat_cons_ne (k : Category) (ks : List Category) (c : String)
    (i : AggregatedIngredient) (h : ¬ k.name = c) :
    insertCat (k :: ks) c i = k :: insertCat ks c i := by
  conv_lhs => rw [insertCat]
  rw [if_neg h]

theorem insertCat_mem (F : String → List AggregatedIngredient) (c : String)
    (i : AggregatedIngredient) :
    ∀ (L : List String), L.Nodup → c ∈ L →
      insertCat (L.map (fun d => ⟨d, F d⟩)) c i =
        L.map (fun d => ⟨d, F d ++ (if d = c then [i] else [])⟩) := by
  intro L
  induction L with
  | nil =>
    intro _ hc
    simp at hc
  | cons d L ih =>
    intro hnd hc
    rw [List.map_cons, List.map_cons]
    by_cases hdc : d = c
    · subst hdc
      rw [insertCat_cons_eq _ _ _ _ rfl]
      have hdl : d ∉ L := (List.nodup_cons.mp hnd).1
      congr 1
      · simp
      · symm
        apply List.map_congr_left
        intro a ha
        rw [if_neg (fun h => hdl (by rw [← h]; exact ha)), List.append_nil]
    · have hc2 : c ∈ L := by
        rcases List.mem_cons.mp hc with h | h
        · exact absurd h.symm hdc
        · exact h
      rw [insertCat_cons_ne ⟨d, F d⟩ _ c i hdc]
      rw [ih (List.nodup_cons.mp hnd).2 hc2]
      rw [if_neg hdc, List.append_nil]

theorem insertCat_notmem (c : String) (i : AggregatedIngredient) :
    ∀ (cats : List Category), (∀ k ∈ cats, k.name ≠ c) →
      insertCat cats c i = cats ++ [⟨c, [i]⟩] := by
  intro cats
  induction cats with
  | nil =>
    intro _
    rfl
  | cons k ks ih =>
    intro h
    rw [insertCat_cons_ne k ks c i (h k (List.mem_cons_self k ks))]
    rw [ih (fun x hx => h x (List.mem_cons_of_mem k hx))]
    rfl

theorem filter_cat_nil (m : Option AisleMapping) (ings : List AggregatedIngredient)
    (c : String) (hc : c ∉ ings.filterMap (fun i => catOf m i.name)) :
    ings.filter (fun i => decide (catOf m i.name = some c)) = [] := by
  rw [List.filter_eq_nil_iff]
  intro i hi hd
  rw [decide_eq_true_eq] at hd
  exact hc (List.mem_filterMap.mpr ⟨i, hi, hd⟩)

theorem foldl_catStep_eq (m : Option AisleMapping) (ings : List AggregatedIngredient) :
    ings.foldl (catStep m) [] =
      (dedupFirst (ings.filterMap (fun i => catOf m i.name))).map
        (fun c => ⟨c, ings.filter (fun i => decide (catOf m i.name = some c))⟩) := by
  induction ings using List.reverseRecOn with
  | nil => rfl
  | append_singleton ings i ih =>
    rw [List.foldl_append, List.foldl_cons, List.foldl_nil, ih]
    cases hc : catOf m i.name with
    | none =>
      have hcat : ∀ C, catStep m C i = C := by
        intro C
        unfold catStep
        rw [hc]
      rw [hcat]
      rw [List.filterMap_append]
      rw [show (List.filterMap (fun i => catOf m i.name) [i]) = [] by
        simp [List.filterMap_cons, hc]]
      rw [List.append_nil]
      apply List.map_congr_left
      intro d _
      rw [List.filter_append]
      rw [show (List.filter (fun j => decide (catOf m j.name = some d)) [i]) = [] by
        simp [List.filter_cons, hc]]
      rw [List.append_nil]
    | some c =>
      have hcat : ∀ C, catStep m C i = insertCat C c i := by
        intro C
        unfold catStep
        rw [hc]
      rw [hcat]
      rw [List.filterMap_append]
      rw [show (List.filterMap (fun i => catOf m i.name) [i]) = [c] by
        simp [List.filterMap_cons, hc]]
      rw [dedupFirst_concat]
      by_cases hmem : c ∈ ings.filterMap (fun j => catOf m j.name)
      · rw [if_pos ((mem_dedupFirst _ c).mpr hmem)]
        rw [insertCat_mem (fun d => ings.filter (fun j => decide (catOf m j.name = some d)))
          c i (dedupFirst (ings.filterMap (fun j => catOf m j.name)))
          (nodup_dedupFirst _) ((mem_dedupFirst _ c).mpr hmem)]
        apply List.map_congr_left
        intro d _
        rw [List.filter_append]
        congr 1
        by_cases hdc : d = c
        · subst hdc
          simp [List.filter_cons, hc]
        · simp [List.filter_cons, hc, hdc, Ne.symm hdc]
      · rw [if_neg ((fun h => hmem ((mem_dedupFirst _ c).mp h)))]
        rw [insertCat_notmem c i _ (by
          intro k hk
          rw [List.mem_map] at hk
          obtain ⟨d, hd, hdk⟩ := hk
          rw [← hdk]
          intro hdc
          exact hmem (by rw [← hdc]; exact (mem_dedupFirst _ d).mp hd))]
        rw [List.map_append, List.map_cons, List.map_nil]
        congr 1
        · apply List.map_congr_left
          intro d hd
          rw [List.filter_append]
          have hdc : d ≠ c := by
            intro hdc
            exact hmem (by rw [← hdc]; exact (mem_dedupFirst _ d).mp hd)
          rw [show (List.filter (fun j => decide (catOf m j.name = some d)) [i]) = [] by
            simp [List.filter_cons, hc, Ne.symm hdc]]
          rw [List.append_nil]
        · rw [List.filter_append]
          rw [filter_cat_nil m ings c hmem]
          simp [List.filter_cons, hc]

/-- C8: the assembled shopping list consists of the matched categories in
first-appearance order of their first ingredient, each category holding its
ingredients in the aggregator's order, followed (iff some ingredient is
unmatched) by the "uncategorized" category — which is therefore always
last, no matter when its members first appeared. -/
theorem c8_assemble_order (m : Option AisleMapping) (ings : List AggregatedIngredient) :
    assemble m ings =
      (dedupFirst (ings.filterMap (fun i => catOf m i.name))).map
        (fun c => ⟨c, ings.filter (fun i => decide (catOf m i.name = some c))⟩) ++
      (if (ings.filter (fun i => (catOf m i.name).isNone)).isEmpty then []
       else [⟨"uncategorized", ings.filter (fun i => (catOf m i.name).isNone)⟩]) := by
  unfold assemble
  rw [foldl_assembleStep_split m ings [] []]
  rw [foldl_catStep_eq m ings]
  rw [List.nil_append]

/-! ## Order and permutation behaviour of aggregation (C6) -/

theorem perm_flatten {α : Type} {l1 l2 : List (List α)} (h : l1.Perm l2) :
    l1.flatten.Perm l2.flatten := by
  induction h with
  | nil => exact List.Perm.refl _
  | cons x _ ih =>
    simp only [List.flatten_cons]
    exact ih.append_left x
  | swap x y l =>
    simp only [List.flatten_cons]
    rw [← List.append_assoc, ← List.append_assoc]
    exact List.perm_append_comm.append_right _
  | trans _ _ ih1 ih2 => exact ih1.trans ih2

theorem toFinset_dedupFirst {α : Type} [DecidableEq α] (l : List α) :
    (dedupFirst l).toFinset = l.toFinset := by
  apply Finset.ext
  intro x
  rw [List.mem_toFinset, List.mem_toFinset, mem_dedupFirst]

theorem lowerNames_addOccurrence (t : UnitTable) (o : IngredientOccurrence) :
    ∀ T : List AggregatedIngredient,
      (addOccurrence t o T).map (fun e => lowerName e.name) =
        if lowerName o.name ∈ T.map (fun e => lowerName e.name)
        then T.map (fun e => lowerName e.name)
        else T.map (fun e => lowerName e.name) ++ [lowerName o.name] := by
  intro T
  induction T with
  | nil => simp [addOccurrence_nil]
  | cons e T ih =>
    by_cases h : lowerName e.name = lowerName o.name
    · rw [addOccurrence_cons_match t o e T h]
      rw [List.map_cons, List.map_cons]
      rw [if_pos (by rw [List.mem_cons]; exact Or.inl h.symm)]
    · rw [addOccurrence_cons_nomatch t o e T h]
      rw [List.map_cons, List.map_cons, ih]
      by_cases h2 : lowerName o.name ∈ T.map (fun e => lowerName e.name)
      · rw [if_pos h2, if_pos (by rw [List.mem_cons]; exact Or.inr h2)]
      · rw [if_neg h2, if_neg (by
          rw [List.mem_cons]
          rintro (h3 | h3)
          · exact h h3.symm
          · exact h2 h3)]
        rfl

/-- The lowercased entry names of an aggregation are exactly the
first-appearance-deduplicated lowercased occurrence names, in order. -/
theorem aggregate_names (t : UnitTable) (os : List IngredientOccurrence) :
    (aggregate t os).map (fun e => lowerName e.name) =
      dedupFirst (os.map (fun o => lowerName o.name)) := by
  unfold aggregate aggregateFrom
  induction os using List.reverseRecOn with
  | nil => rfl
  | append_singleton os o ih =>
    rw [List.foldl_append, List.foldl_cons, List.foldl_nil]
    rw [lowerNames_addOccurrence t o _]
    rw [ih, List.map_append, List.map_cons, List.map_nil, dedupFirst_concat]
    by_cases hmem : lowerName o.name ∈ dedupFirst (os.map (fun o => lowerName o.name))
    · rw [if_pos hmem, if_pos hmem]
    · rw [if_neg hmem, if_neg hmem]

/-- The (ingredient name, quantity) content of an aggregation result, as a
multiset. -/
def contentOf (S : List AggregatedIngredient) : Multiset (List Nat × Quantity) :=
  ((S.map (fun e => e.quantities.map (fun q => (e.name, q)))).flatten : List _)

/-- Counterexample to C6 as stated: swapping the two flour recipes changes
the (ingredient, quantity) content of the result — the summed quantity is
normalized to the first operand's unit, so one order yields 440 g and the
other yields 11/6 cup. -/
theorem c6_counterexample :
    List.Perm [flourRecipeCup, flourRecipeG] [flourRecipeG, flourRecipeCup] ∧
    contentOf (aggregateRecipes flourTable [flourRecipeCup, flourRecipeG]) ≠
      contentOf (aggregateRecipes flourTable [flourRecipeG, flourRecipeCup]) := by
  constructor
  · exact List.Perm.swap flourRecipeG flourRecipeCup []
  · have h1 : aggregateRecipes flourTable [flourRecipeG, flourRecipeCup] =
        [⟨flourName, [⟨Value.num 440, some "g"⟩], ["r1", "r2"]⟩] := by
      norm_num +decide [aggregateRecipes, aggregate, aggregateFrom, occurrencesOf,
        addOccurrence, mergeQuantity, try_add, resolveUnit, addSource,
        flourTable, flourRecipeG, flourRecipeCup]
    have h2 : aggregateRecipes flourTable [flourRecipeCup, flourRecipeG] =
        [⟨flourName, [⟨Value.num (11 / 6), some "cup"⟩], ["r2", "r1"]⟩] := by
      norm_num +decide [aggregateRecipes, aggregate, aggregateFrom, occurrencesOf,
        addOccurrence, mergeQuantity, try_add, resolveUnit, addSource,
        flourTable, flourRecipeG, flourRecipeCup]
    rw [h1, h2]
    intro h
    simp only [contentOf, List.map_cons, List.map_nil, List.flatten_cons,
      List.flatten_nil, List.append_nil, Multiset.coe_singleton,
      Multiset.singleton_inj, Prod.mk.injEq, Quantity.mk.injEq] at h
    have h3 : (some "cup" : Option String) = some "g" := h.2.2
    rw [Option.some.injEq] at h3
    exact absurd h3 (by decide)

/-- C6 (amended): aggregation output is deterministic with entries in
first-appearance order of the (lowercased) ingredient names, and permuting
the recipe list leaves the set of lowercased entry names unchanged; but the
quantity content itself may depend on the order (see the counterexample). -/
theorem c6_first_appearance_and_name_set (t : UnitTable) (rs rs2 : List Recipe)
    (hperm : rs2.Perm rs) :
    (aggregateRecipes t rs).map (fun e => lowerName e.name) =
      dedupFirst ((rs.map occurrencesOf).flatten.map (fun o => lowerName o.name)) ∧
    ((aggregateRecipes t rs2).map (fun e => lowerName e.name)).toFinset =
      ((aggregateRecipes t rs).map (fun e => lowerName e.name)).toFinset := by
  constructor
  · exact aggregate_names t _
  · unfold aggregateRecipes
    rw [aggregate_names, aggregate_names]
    rw [toFinset_dedupFirst, toFinset_dedupFirst]
    exact List.toFinset_eq_of_perm _ _ ((perm_flatten (hperm.map occurrencesOf)).map _)

/-- Witness for C6 (amended) at the two flour recipes. -/
theorem c6_first_appearance_and_name_set_witness :
    (aggregateRecipes flourTable [flourRecipeG, flourRecipeCup]).map
        (fun e => lowerName e.name) =
      dedupFirst (([flourRecipeG, flourRecipeCup].map occurrencesOf).flatten.map
        (fun o => lowerName o.name)) ∧
    ((aggregateRecipes flourTable [flourRecipeCup, flourRecipeG]).map
        (fun e => lowerName e.name)).toFinset =
      ((aggregateRecipes flourTable [flourRecipeG, flourRecipeCup]).map
        (fun e => lowerName e.name)).toFinset :=
  c6_first_appearance_and_name_set flourTable [flourRecipeG, flourRecipeCup]
    [flourRecipeCup, flourRecipeG] (List.Perm.swap flourRecipeG flourRecipeCup [])

/-! ## Doubling behaviour of aggregation (C5)

Aggregating the same recipe twice should double every quantity.  The proof
for numeric recipes proceeds by a simulation argument: running the
occurrence list a second time over the final state `S` adds, group by
group, exactly the contributions of the first pass. -/

/-- Whether a quantity value is numeric. -/
def qIsNum (q : Quantity) : Bool :=
  match q.value with
  | Value.num _ => true
  | Value.unspecified => false

/-- The numeric value of a quantity (0 for unspecified; only used on
numeric quantities). -/
def bval (q : Quantity) : ℚ :=
  match q.value with
  | Value.num x => x
  | Value.unspecified => 0

/-- Doubling a quantity: twice the numeric value, unspecified unchanged. -/
def doubleQ (q : Quantity) : Quantity :=
  match q.value with
  | Value.num x => ⟨Value.num (2 * x), q.unit⟩
  | Value.unspecified => q

/-- Doubling every quantity group of an entry, keeping name and sources. -/
def doubleEntry (e : AggregatedIngredient) : AggregatedIngredient :=
  ⟨e.name, e.quantities.map doubleQ, e.sources⟩

/-- Doubling a whole aggregation state. -/
def doubleState (S : List AggregatedIngredient) : List AggregatedIngredient :=
  S.map doubleEntry

/-- The amount that merging quantity `q` adds to a numeric group carrying
unit `u` (the converted value of `q`). -/
def incr (t : UnitTable) (u : Option String) (q : Quantity) : ℚ :=
  if u = q.unit then bval q
  else
    match u, q.unit with
    | some a, some b =>
      match resolveUnit t a, resolveUnit t b with
      | some (_, ra), some (_, rb) => bval q * rb / ra
      | _, _ => 0
    | _, _ => 0

/-- Whether two units can be merged by `try_add` (for numeric values):
equal, or both resolving to the same dimension. -/
def compatB (t : UnitTable) (u v : Option String) : Bool :=
  if u = v then true
  else
    match u, v with
    | some a, some b =>
      match resolveUnit t a, resolveUnit t b with
      | some (da, _), some (db, _) => decide (da = db)
      | _, _ => false
    | _, _ => false

/-- For numeric operands, `try_add` succeeds exactly on compatible units,
keeping the first operand's unit and adding the converted value. -/
theorem try_add_num (t : UnitTable) (u : Option String) (X : ℚ) (q : Quantity) (y : ℚ)
    (hy : q.value = Value.num y) :
    try_add t ⟨Value.num X, u⟩ q =
      (if compatB t u q.unit then AddResult.ok ⟨Value.num (X + incr t u q), u⟩
       else AddResult.incompatible) := by
  obtain ⟨v, w⟩ := q
  simp only at hy
  subst hy
  by_cases huw : u = w
  · subst huw
    have hl : try_add t ⟨Value.num X, u⟩ ⟨Value.num y, u⟩ =
        AddResult.ok ⟨Value.num (X + y), u⟩ := by
      unfold try_add
      simp
    have hcp : compatB t u u = true := by
      unfold compatB
      simp
    have hi : incr t u ⟨Value.num y, u⟩ = y := by
      unfold incr
      simp [bval]
    rw [hl, hcp, if_pos rfl, hi]
  · cases u with
    | none =>
      cases w with
      | none => exact absurd rfl huw
      | some b =>
        have hl : try_add t ⟨Value.num X, none⟩ ⟨Value.num y, some b⟩ =
            AddResult.incompatible := by
          unfold try_add
          simp only
          rw [if_neg huw]
        have hcp : compatB t none (some b) = false := by
          unfold compatB
          rw [if_neg huw]
        rw [hl, hcp]
        simp
    | some a =>
      cases w with
      | none =>
        have hl : try_add t ⟨Value.num X, some a⟩ ⟨Value.num y, none⟩ =
            AddResult.incompatible := by
          unfold try_add
          simp only
          rw [if_neg huw]
        have hcp : compatB t (some a) none = false := by
          unfold compatB
          rw [if_neg huw]
        rw [hl, hcp]
        simp
      | some b =>
        cases hra : resolveUnit t a with
        | none =>
          have hl : try_add t ⟨Value.num X, some a⟩ ⟨Value.num y, some b⟩ =
              AddResult.incompatible := by
            unfold try_add
            simp only
            rw [if_neg huw, hra]
          have hcp : compatB t (some a) (some b) = false := by
            unfold compatB
            rw [if_neg huw]
            simp only
            rw [hra]
          rw [hl, hcp]
          simp
        | some pa =>
          obtain ⟨da, ra⟩ := pa
          cases hrb : resolveUnit t b with
          | none =>
            have hl : try_add t ⟨Value.num X, some a⟩ ⟨Value.num y, some b⟩ =
                AddResult.incompatible := by
              unfold try_add
              simp only
              rw [if_neg huw, hra, hrb]
            have hcp : compatB t (some a) (some b) = false := by
              unfold compatB
              rw [if_neg huw]
              simp only
              rw [hra, hrb]
            rw [hl, hcp]
            simp
          | some pb =>
            obtain ⟨db, rb⟩ := pb
            by_cases hd : da = db
            · have hl : try_add t ⟨Value.num X, some a⟩ ⟨Value.num y, some b⟩ =
                  AddResult.ok ⟨Value.num (X + y * rb / ra), some a⟩ := by
                unfold try_add
                simp only
                rw [if_neg huw, hra, hrb]
                simp only
                rw [if_pos hd]
              have hcp : compatB t (some a) (some b) = true := by
                unfold compatB
                rw [if_neg huw]
                simp only
                rw [hra, hrb]
                simp only
                rw [decide_eq_true_eq]
                exact hd
              have hi : incr t (some a) ⟨Value.num y, some b⟩ = y * rb / ra := by
                unfold incr
                rw [if_neg huw]
                simp only
                rw [hra, hrb]
                simp [bval]
              rw [hl, hcp, if_pos rfl, hi]
            · have hl : try_add t ⟨Value.num X, some a⟩ ⟨Value.num y, some b⟩ =
                  AddResult.incompatible := by
                unfold try_add
                simp only
                rw [if_neg huw, hra, hrb]
                simp only
                rw [if_neg hd]
              have hcp : compatB t (some a) (some b) = false := by
                unfold compatB
                rw [if_neg huw]
                simp only
                rw [hra, hrb]
                simp only
                rw [decide_eq_false_iff_not]
                exact hd
              rw [hl, hcp]
              simp

/-- All quantities in a group list are numeric. -/
def groupsNum (gs : List Quantity) : Prop := ∀ q ∈ gs, qIsNum q = true

/-- All quantities in an aggregation state are numeric. -/
def stateNum (S : List AggregatedIngredient) : Prop := ∀ E ∈ S, groupsNum E.quantities

theorem qIsNum_destruct (q : Quantity) (h : qIsNum q = true) :
    ∃ x, q = ⟨Value.num x, q.unit⟩ := by
  obtain ⟨v, u⟩ := q
  cases v with
  | num x => exact ⟨x, rfl⟩
  | unspecified => simp [qIsNum] at h

/-- The unit list of a group list. -/
def unitsOf (gs : List Quantity) : List (Option String) := gs.map Quantity.unit

/-- Pointwise prefix order on unit lists. -/
def unitsLe : List (Option String) → List (Option String) → Prop
  | [], _ => True
  | _ :: _, [] => False
  | a :: l, b :: m => a = b ∧ unitsLe l m

theorem unitsLe_refl : ∀ l, unitsLe l l
  | [] => trivial
  | _ :: l => ⟨rfl, unitsLe_refl l⟩

theorem unitsLe_trans : ∀ {l m k}, unitsLe l m → unitsLe m k → unitsLe l k
  | [], _, _, _, _ => trivial
  | _ :: _, [], _, h, _ => False.elim h
  | _ :: _, _ :: _, [], _, h2 => False.elim h2
  | _ :: _, _ :: _, _ :: _, h1, h2 =>
    ⟨h1.1.trans h2.1, unitsLe_trans h1.2 h2.2⟩

theorem unitsLe_append : ∀ (l m : List (Option String)), unitsLe l (l ++ m)
  | [], _ => trivial
  | _ :: l, m => ⟨rfl, unitsLe_append l m⟩

/-- One entry extends another: same name, unit list a pointwise prefix. -/
def entryExt (e E : AggregatedIngredient) : Prop :=
  e.name = E.name ∧ unitsLe (unitsOf e.quantities) (unitsOf E.quantities)

theorem entryExt_refl (e : AggregatedIngredient) : entryExt e e :=
  ⟨rfl, unitsLe_refl _⟩

theorem entryExt_trans {e f g : AggregatedIngredient} (h1 : entryExt e f)
    (h2 : entryExt f g) : entryExt e g :=
  ⟨h1.1.trans h2.1, unitsLe_trans h1.2 h2.2⟩

/-- One aggregation state extends another: the earlier state's entries are
a positional prefix with the same names and prefix unit lists. -/
def stateExt : List AggregatedIngredient → List AggregatedIngredient → Prop
  | [], _ => True
  | _ :: _, [] => False
  | e :: T, E :: S => entryExt e E ∧ stateExt T S

theorem stateExt_refl : ∀ S, stateExt S S
  | [] => trivial
  | _ :: S => ⟨entryExt_refl _, stateExt_refl S⟩

theorem stateExt_trans : ∀ {T U S}, stateExt T U → stateExt U S → stateExt T S
  | [], _, _, _, _ => trivial
  | _ :: _, [], _, h, _ => False.elim h
  | _ :: _, _ :: _, [], _, h2 => False.elim h2
  | _ :: _, _ :: _, _ :: _, h1, h2 =>
    ⟨entryExt_trans h1.1 h2.1, stateExt_trans h1.2 h2.2⟩

theorem stateExt_append : ∀ (T L : List AggregatedIngredient), stateExt T (T ++ L)
  | [], _ => trivial
  | _ :: T, L => ⟨entryExt_refl _, stateExt_append T L⟩

/-- Merging a numeric quantity into numeric groups keeps every group
numeric. -/
theorem merge_num (t : UnitTable) (q : Quantity) (hq : qIsNum q = true) :
    ∀ gs : List Quantity, groupsNum gs → groupsNum (mergeQuantity t q gs) := by
  intro gs
  induction gs with
  | nil =>
    intro _
    intro x hx
    rw [mergeQuantity_nil] at hx
    rw [List.mem_singleton] at hx
    subst hx
    exact hq
  | cons g gs ih =>
    intro hgs
    have hg : qIsNum g = true := hgs g (List.mem_cons_self g gs)
    obtain ⟨xg, hxg⟩ := qIsNum_destruct g hg
    obtain ⟨yq, hyq⟩ := qIsNum_destruct q hq
    have hqv : q.value = Value.num yq := by rw [hyq]
    have ht := try_add_num t g.unit xg q yq hqv
    rw [← hxg] at ht
    by_cases hc : compatB t g.unit q.unit = true
    · rw [hc, if_pos rfl] at ht
      rw [mergeQuantity_cons_ok t q g _ gs ht]
      intro x hx
      rcases List.mem_cons.mp hx with hx | hx
      · subst hx
        rfl
      · exact hgs x (List.mem_cons_of_mem g hx)
    · rw [Bool.not_eq_true] at hc
      rw [hc] at ht
      rw [if_neg (by simp)] at ht
      rw [mergeQuantity_cons_incompat t q g gs ht]
      intro x hx
      rcases List.mem_cons.mp hx with hx | hx
      · subst hx
        exact hg
      · exact ih (fun y hy => hgs y (List.mem_cons_of_mem g hy)) x hx

/-- Merging either leaves the unit list unchanged or appends the merged
quantity's unit. -/
theorem merge_units (t : UnitTable) (q : Quantity) (hq : qIsNum q = true) :
    ∀ gs : List Quantity, groupsNum gs →
      unitsOf (mergeQuantity t q gs) = unitsOf gs ∨
      unitsOf (mergeQuantity t q gs) = unitsOf gs ++ [q.unit] := by
  intro gs
  induction gs with
  | nil =>
    intro _
    right
    rfl
  | cons g gs ih =>
    intro hgs
    have hg : qIsNum g = true := hgs g (List.mem_cons_self g gs)
    obtain ⟨xg, hxg⟩ := qIsNum_destruct g hg
    obtain ⟨yq, hyq⟩ := qIsNum_destruct q hq
    have hqv : q.value = Value.num yq := by rw [hyq]
    have ht := try_add_num t g.unit xg q yq hqv
    rw [← hxg] at ht
    by_cases hc : compatB t g.unit q.unit = true
    · rw [hc, if_pos rfl] at ht
      rw [mergeQuantity_cons_ok t q g _ gs ht]
      left
      rfl
    · rw [Bool.not_eq_true] at hc
      rw [hc] at ht
      rw [if_neg (by simp)] at ht
      rw [mergeQuantity_cons_incompat t q g gs ht]
      rcases ih (fun y hy => hgs y (List.mem_cons_of_mem g hy)) with h | h
      · left
        unfold unitsOf at h ⊢
        rw [List.map_cons, List.map_cons, h]
      · right
        unfold unitsOf at h ⊢
        rw [List.map_cons, List.map_cons, h]
        rfl

theorem merge_unitsLe (t : UnitTable) (q : Quantity) (hq : qIsNum q = true)
    (gs : List Quantity) (hgs : groupsNum gs) :
    unitsLe (unitsOf gs) (unitsOf (mergeQuantity t q gs)) := by
  rcases merge_units t q hq gs hgs with h | h
  · rw [h]
    exact unitsLe_refl _
  · rw [h]
    exact unitsLe_append _ _

/-- Pointwise blending of a second-pass group's value into a first-pass
group: add the values, keep the first group's unit. -/
def addQ (G g : Quantity) : Quantity := ⟨Value.num (bval G + bval g), G.unit⟩

/-- Blend the groups of a partial state entry into the corresponding
leading groups of the full state entry. -/
def addGroups : List Quantity → List Quantity → List Quantity
  | Gs, [] => Gs
  | [], _ :: _ => []
  | G :: Gs, g :: gs => addQ G g :: addGroups Gs gs

/-- Blend one partial entry into the corresponding full entry. -/
def blendEntry (E e : AggregatedIngredient) : AggregatedIngredient :=
  ⟨E.name, addGroups E.quantities e.quantities, E.sources⟩

/-- Blend a partial state into the full state, positionally. -/
def addStates : List AggregatedIngredient → List AggregatedIngredient →
    List AggregatedIngredient
  | S, [] => S
  | [], _ :: _ => []
  | E :: S, e :: T => blendEntry E e :: addStates S T

theorem compatB_of_eq (t : UnitTable) {u v : Option String} (h : u = v) :
    compatB t u v = true := by
  unfold compatB
  rw [if_pos h]

theorem incr_of_eq (t : UnitTable) {u : Option String} {q : Quantity}
    (h : u = q.unit) : incr t u q = bval q := by
  unfold incr
  rw [if_pos h]

theorem bval_destruct (G : Quantity) {xG : ℚ} (h : G = ⟨Value.num xG, G.unit⟩) :
    bval G = xG := by
  rw [h]
  rfl

theorem addGroups_nil_right (Gs : List Quantity) : addGroups Gs [] = Gs := by
  cases Gs <;> simp only [addGroups]

theorem addGroups_cons (G g : Quantity) (Gs gs : List Quantity) :
    addGroups (G :: Gs) (g :: gs) = addQ G g :: addGroups Gs gs := by
  simp only [addGroups]

theorem try_add_addQ (t : UnitTable) (G q : Quantity) (hG : qIsNum G = true)
    (hq : qIsNum q = true) (hu : G.unit = q.unit) :
    try_add t G q = AddResult.ok (addQ G q) := by
  obtain ⟨xG, hxG⟩ := qIsNum_destruct G hG
  obtain ⟨yq, hyq⟩ := qIsNum_destruct q hq
  have ht := try_add_num t G.unit xG q yq (by rw [hyq])
  rw [← hxG] at ht
  rw [compatB_of_eq t hu, if_pos rfl, incr_of_eq t hu] at ht
  rw [ht]
  unfold addQ
  rw [bval_destruct G hxG]

/-- The merge-level commutation: merging a numeric quantity into the
blended groups is the blend of the merged partial groups, provided the
partial unit list stays a prefix of the full one after the merge. -/
theorem merge_addGroups (t : UnitTable) (q : Quantity) (hq : qIsNum q = true) :
    ∀ (gs Gs : List Quantity), groupsNum gs → groupsNum Gs →
      unitsLe (unitsOf gs) (unitsOf Gs) →
      unitsLe (unitsOf (mergeQuantity t q gs)) (unitsOf Gs) →
      mergeQuantity t q (addGroups Gs gs) = addGroups Gs (mergeQuantity t q gs) := by
  intro gs
  induction gs with
  | nil =>
    intro Gs _ hGs _ hpost
    rw [mergeQuantity_nil] at hpost ⊢
    cases Gs with
    | nil => exact False.elim hpost
    | cons G Gs2 =>
      have hGu : q.unit = G.unit := hpost.1
      have hG : qIsNum G = true := hGs G (List.mem_cons_self G Gs2)
      have ht := try_add_addQ t G q hG hq hGu.symm
      rw [addGroups_nil_right]
      rw [mergeQuantity_cons_ok t q G (addQ G q) Gs2 ht]
      rw [addGroups_cons, addGroups_nil_right]
  | cons g gs2 ih =>
    intro Gs hgs hGs hpre hpost
    cases Gs with
    | nil => exact False.elim hpre
    | cons G Gs2 =>
      have hgu : g.unit = G.unit := hpre.1
      have hg : qIsNum g = true := hgs g (List.mem_cons_self g gs2)
      have hG : qIsNum G = true := hGs G (List.mem_cons_self G Gs2)
      have hgs2 : groupsNum gs2 := fun y hy => hgs y (List.mem_cons_of_mem g hy)
      have hGs2 : groupsNum Gs2 := fun y hy => hGs y (List.mem_cons_of_mem G hy)
      obtain ⟨xg, hxg⟩ := qIsNum_destruct g hg
      obtain ⟨yq, hyq⟩ := qIsNum_destruct q hq
      have hqv : q.value = Value.num yq := by rw [hyq]
      have htg := try_add_num t g.unit xg q yq hqv
      rw [← hxg] at htg
      have hstep : addGroups (G :: Gs2) (g :: gs2) = addQ G g :: addGroups Gs2 gs2 :=
        addGroups_cons G g Gs2 gs2
      have hunit : (addQ G g).unit = g.unit := by
        unfold addQ
        rw [hgu]
      have htG := try_add_num t (addQ G g).unit (bval G + bval g) q yq hqv
      rw [show (⟨Value.num (bval G + bval g), (addQ G g).unit⟩ : Quantity) = addQ G g
        from rfl] at htG
      by_cases hc : compatB t g.unit q.unit = true
      · rw [hc, if_pos rfl] at htg
        rw [hunit, hc, if_pos rfl] at htG
        rw [hstep]
        rw [mergeQuantity_cons_ok t q (addQ G g) _ (addGroups Gs2 gs2) htG]
        rw [mergeQuantity_cons_ok t q g _ gs2 htg]
        rw [addGroups_cons]
        congr 1
        unfold addQ
        rw [bval_destruct g hxg, ← hgu]
        rw [show bval (⟨Value.num (xg + incr t g.unit q), g.unit⟩ : Quantity) =
          xg + incr t g.unit q from rfl]
        rw [add_assoc]
      · rw [Bool.not_eq_true] at hc
        rw [hc, if_neg (by simp)] at htg
        rw [hunit, hc, if_neg (by simp)] at htG
        rw [hstep]
        rw [mergeQuantity_cons_incompat t q (addQ G g) (addGroups Gs2 gs2) htG]
        rw [mergeQuantity_cons_incompat t q g gs2 htg]
        rw [mergeQuantity_cons_incompat t q g gs2 htg] at hpost
        have hpost2 : unitsLe (unitsOf (mergeQuantity t q gs2)) (unitsOf Gs2) := by
          have : unitsOf (g :: mergeQuantity t q gs2) =
              g.unit :: unitsOf (mergeQuantity t q gs2) := rfl
          rw [this] at hpost
          exact hpost.2
        rw [ih Gs2 hgs2 hGs2 hpre.2 hpost2]
        rw [addGroups_cons]

/-- All occurrences numeric. -/
def occsNum (Q : List IngredientOccurrence) : Prop := ∀ o ∈ Q, qIsNum o.quantity = true

/-- All occurrence recipe references equal `r`. -/
def occsRef (Q : List IngredientOccurrence) (r : RecipeId) : Prop :=
  ∀ o ∈ Q, o.recipe_ref = r

/-- Every entry's sources are exactly `[r]`. -/
def srcInv (S : List AggregatedIngredient) (r : RecipeId) : Prop :=
  ∀ E ∈ S, E.sources = [r]

theorem addSource_self (r : RecipeId) : addSource r [r] = [r] := by
  unfold addSource
  rw [if_pos (List.mem_singleton.mpr rfl)]

theorem aggregateFrom_nil (t : UnitTable) (T : List AggregatedIngredient) :
    aggregateFrom t T [] = T := rfl

theorem aggregateFrom_cons (t : UnitTable) (T : List AggregatedIngredient)
    (o : IngredientOccurrence) (Q : List IngredientOccurrence) :
    aggregateFrom t T (o :: Q) = aggregateFrom t (addOccurrence t o T) Q := rfl

theorem addOcc_num (t : UnitTable) (o : IngredientOccurrence)
    (ho : qIsNum o.quantity = true) :
    ∀ T : List AggregatedIngredient, stateNum T → stateNum (addOccurrence t o T) := by
  intro T
  induction T with
  | nil =>
    intro _
    intro E hE
    rw [addOccurrence_nil] at hE
    rw [List.mem_singleton] at hE
    subst hE
    intro x hx
    rw [List.mem_singleton] at hx
    subst hx
    exact ho
  | cons e T ih =>
    intro hT
    by_cases hm : lowerName e.name = lowerName o.name
    · rw [addOccurrence_cons_match t o e T hm]
      intro E hE
      rcases List.mem_cons.mp hE with hE | hE
      · subst hE
        exact merge_num t o.quantity ho e.quantities (hT e (List.mem_cons_self e T))
      · exact hT E (List.mem_cons_of_mem e hE)
    · rw [addOccurrence_cons_nomatch t o e T hm]
      intro E hE
      rcases List.mem_cons.mp hE with hE | hE
      · subst hE
        exact hT E (List.mem_cons_self E T)
      · exact ih (fun F hF => hT F (List.mem_cons_of_mem e hF)) E hE

theorem addOcc_ext (t : UnitTable) (o : IngredientOccurrence)
    (ho : qIsNum o.quantity = true) :
    ∀ T : List AggregatedIngredient, stateNum T → stateExt T (addOccurrence t o T) := by
  intro T
  induction T with
  | nil =>
    intro _
    trivial
  | cons e T ih =>
    intro hT
    by_cases hm : lowerName e.name = lowerName o.name
    · rw [addOccurrence_cons_match t o e T hm]
      exact ⟨⟨rfl, merge_unitsLe t o.quantity ho e.quantities
        (hT e (List.mem_cons_self e T))⟩, stateExt_refl T⟩
    · rw [addOccurrence_cons_nomatch t o e T hm]
      exact ⟨entryExt_refl e, ih (fun F hF => hT F (List.mem_cons_of_mem e hF))⟩

theorem addOcc_src (t : UnitTable) (o : IngredientOccurrence) (r : RecipeId)
    (ho : o.recipe_ref = r) :
    ∀ T : List AggregatedIngredient, srcInv T r → srcInv (addOccurrence t o T) r := by
  intro T
  induction T with
  | nil =>
    intro _
    intro E hE
    rw [addOccurrence_nil] at hE
    rw [List.mem_singleton] at hE
    subst hE
    rw [ho]
  | cons e T ih =>
    intro hT
    by_cases hm : lowerName e.name = lowerName o.name
    · rw [addOccurrence_cons_match t o e T hm]
      intro E hE
      rcases List.mem_cons.mp hE with hE | hE
      · subst hE
        rw [ho, hT e (List.mem_cons_self e T)]
        exact addSource_self r
      · exact hT E (List.mem_cons_of_mem e hE)
    · rw [addOccurrence_cons_nomatch t o e T hm]
      intro E hE
      rcases List.mem_cons.mp hE with hE | hE
      · subst hE
        exact hT E (List.mem_cons_self E T)
      · exact ih (fun F hF => hT F (List.mem_cons_of_mem e hF)) E hE

theorem fold_num (t : UnitTable) :
    ∀ (Q : List IngredientOccurrence) (T : List AggregatedIngredient),
      stateNum T → occsNum Q → stateNum (aggregateFrom t T Q) := by
  intro Q
  induction Q with
  | nil =>
    intro T hT _
    exact hT
  | cons o Q ih =>
    intro T hT hQ
    rw [aggregateFrom_cons]
    exact ih (addOccurrence t o T)
      (addOcc_num t o (hQ o (List.mem_cons_self o Q)) T hT)
      (fun p hp => hQ p (List.mem_cons_of_mem o hp))

theorem fold_ext (t : UnitTable) :
    ∀ (Q : List IngredientOccurrence) (T : List AggregatedIngredient),
      stateNum T → occsNum Q → stateExt T (aggregateFrom t T Q) := by
  intro Q
  induction Q with
  | nil =>
    intro T _ _
    exact stateExt_refl T
  | cons o Q ih =>
    intro T hT hQ
    rw [aggregateFrom_cons]
    have ho := hQ o (List.mem_cons_self o Q)
    exact stateExt_trans (addOcc_ext t o ho T hT)
      (ih (addOccurrence t o T) (addOcc_num t o ho T hT)
        (fun p hp => hQ p (List.mem_cons_of_mem o hp)))

theorem fold_src (t : UnitTable) (r : RecipeId) :
    ∀ (Q : List IngredientOccurrence) (T : List AggregatedIngredient),
      srcInv T r → occsRef Q r → srcInv (aggregateFrom t T Q) r := by
  intro Q
  induction Q with
  | nil =>
    intro T hT _
    exact hT
  | cons o Q ih =>
    intro T hT hQ
    rw [aggregateFrom_cons]
    exact ih (addOccurrence t o T)
      (addOcc_src t o r (hQ o (List.mem_cons_self o Q)) T hT)
      (fun p hp => hQ p (List.mem_cons_of_mem o hp))

theorem addStates_nil_right (S : List AggregatedIngredient) : addStates S [] = S := by
  cases S <;> simp only [addStates]

theorem addStates_cons (E e : AggregatedIngredient) (S T : List AggregatedIngredient) :
    addStates (E :: S) (e :: T) = blendEntry E e :: addStates S T := by
  simp only [addStates]

/-- Processing one occurrence commutes with blending: adding `o` to the
blend of the full state `S` with the partial state `T` is the blend of `S`
with `addOccurrence o T`, provided `S` extends `addOccurrence o T`. -/
theorem step_commute (t : UnitTable) (o : IngredientOccurrence) (r : RecipeId)
    (ho : qIsNum o.quantity = true) (hor : o.recipe_ref = r) :
    ∀ (T S : List AggregatedIngredient),
      stateExt (addOccurrence t o T) S →
      stateNum T → stateNum S → srcInv S r →
      addOccurrence t o (addStates S T) = addStates S (addOccurrence t o T) := by
  intro T
  induction T with
  | nil =>
    intro S hext _ hSnum hsrc
    rw [addOccurrence_nil] at hext ⊢
    rw [addStates_nil_right]
    cases S with
    | nil => exact False.elim hext
    | cons E S2 =>
      obtain ⟨⟨hname, hu⟩, -⟩ := hext
      simp only at hname hu
      rw [addOccurrence_cons_match t o E S2 (by rw [hname])]
      rw [addStates_cons, addStates_nil_right]
      unfold blendEntry
      simp only
      have hsrcE : E.sources = [r] := hsrc E (List.mem_cons_self E S2)
      cases hEq : E.quantities with
      | nil =>
        rw [hEq] at hu
        exact False.elim hu
      | cons G rest =>
        rw [hEq] at hu
        have hG : qIsNum G = true := by
          have := hSnum E (List.mem_cons_self E S2)
          exact this G (by rw [hEq]; exact List.mem_cons_self G rest)
        have ht := try_add_addQ t G o.quantity hG ho hu.1.symm
        rw [mergeQuantity_cons_ok t o.quantity G (addQ G o.quantity) rest ht]
        rw [addGroups_cons, addGroups_nil_right]
        rw [hor, hsrcE, addSource_self]
  | cons e T2 ih =>
    intro S hext hTnum hSnum hsrc
    have hTnum2 : stateNum T2 := fun F hF => hTnum F (List.mem_cons_of_mem e hF)
    have he_num : groupsNum e.quantities := hTnum e (List.mem_cons_self e T2)
    by_cases hm : lowerName e.name = lowerName o.name
    · rw [addOccurrence_cons_match t o e T2 hm] at hext ⊢
      cases S with
      | nil => exact False.elim hext
      | cons E S2 =>
        obtain ⟨⟨hname, hu⟩, hrest⟩ := hext
        simp only at hname hu
        rw [addStates_cons, addStates_cons]
        rw [addOccurrence_cons_match t o (blendEntry E e) (addStates S2 T2) (by
          show lowerName (blendEntry E e).name = lowerName o.name
          unfold blendEntry
          simp only
          rw [← hname]
          exact hm)]
        unfold blendEntry
        simp only
        have hsrcE : E.sources = [r] := hsrc E (List.mem_cons_self E S2)
        have hE_num : groupsNum E.quantities := hSnum E (List.mem_cons_self E S2)
        have hpre : unitsLe (unitsOf e.quantities) (unitsOf E.quantities) :=
          unitsLe_trans (merge_unitsLe t o.quantity ho e.quantities he_num) hu
        rw [merge_addGroups t o.quantity ho e.quantities E.quantities he_num hE_num hpre hu]
        rw [hor, hsrcE, addSource_self]
    · rw [addOccurrence_cons_nomatch t o e T2 hm] at hext ⊢
      cases S with
      | nil => exact False.elim hext
      | cons E S2 =>
        obtain ⟨⟨hname, -⟩, hrest⟩ := hext
        rw [addStates_cons, addStates_cons]
        rw [addOccurrence_cons_nomatch t o (blendEntry E e) (addStates S2 T2) (by
          show ¬ lowerName (blendEntry E e).name = lowerName o.name
          unfold blendEntry
          simp only
          rw [← hname]
          exact hm)]
        congr 1
        exact ih S2 hrest hTnum2
          (fun F hF => hSnum F (List.mem_cons_of_mem E hF))
          (fun F hF => hsrc F (List.mem_cons_of_mem E hF))

theorem fold_double (t : UnitTable) (r : RecipeId) :
    ∀ (Q : List IngredientOccurrence) (T : List AggregatedIngredient),
      stateNum T → occsNum Q → occsRef Q r → srcInv T r →
      aggregateFrom t (addStates (aggregateFrom t T Q) T) Q =
        addStates (aggregateFrom t T Q) (aggregateFrom t T Q) := by
  intro Q
  induction Q with
  | nil =>
    intro T _ _ _ _
    rw [aggregateFrom_nil, aggregateFrom_nil]
  | cons o Q ih =>
    intro T hT hQn hQr hTs
    have ho : qIsNum o.quantity = true := hQn o (List.mem_cons_self o Q)
    have hor : o.recipe_ref = r := hQr o (List.mem_cons_self o Q)
    have hQn2 : occsNum Q := fun p hp => hQn p (List.mem_cons_of_mem o hp)
    have hQr2 : occsRef Q r := fun p hp => hQr p (List.mem_cons_of_mem o hp)
    have hT2 : stateNum (addOccurrence t o T) := addOcc_num t o ho T hT
    have hTs2 : srcInv (addOccurrence t o T) r := addOcc_src t o r hor T hTs
    rw [aggregateFrom_cons t T o Q]
    rw [aggregateFrom_cons t
      (addStates (aggregateFrom t (addOccurrence t o T) Q) T) o Q]
    rw [step_commute t o r ho hor T (aggregateFrom t (addOccurrence t o T) Q)
      (fold_ext t Q (addOccurrence t o T) hT2 hQn2) hT
      (fold_num t Q (addOccurrence t o T) hT2 hQn2)
      (fold_src t r Q (addOccurrence t o T) hTs2 hQr2)]
    exact ih (addOccurrence t o T) hT2 hQn2 hQr2 hTs2

theorem addGroups_self : ∀ gs : List Quantity, addGroups gs gs = gs.map (fun G => addQ G G)
  | [] => by simp only [addGroups, List.map_nil]
  | G :: gs => by
    rw [addGroups_cons, List.map_cons, addGroups_self gs]

theorem addQ_self_double (G : Quantity) (hG : qIsNum G = true) : addQ G G = doubleQ G := by
  obtain ⟨x, hx⟩ := qIsNum_destruct G hG
  rw [hx]
  unfold addQ doubleQ bval
  simp only
  rw [two_mul]

theorem addStates_self_double : ∀ S : List AggregatedIngredient, stateNum S →
    addStates S S = doubleState S := by
  intro S
  induction S with
  | nil =>
    intro _
    rfl
  | cons E S ih =>
    intro hS
    rw [addStates_cons]
    unfold doubleState
    rw [List.map_cons]
    have hq : blendEntry E E = doubleEntry E := by
      unfold blendEntry doubleEntry
      have h2 : addGroups E.quantities E.quantities = E.quantities.map doubleQ := by
        rw [addGroups_self]
        apply List.map_congr_left
        intro G hG
        exact addQ_self_double G (hS E (List.mem_cons_self E S) G hG)
      rw [h2]
    rw [hq]
    have htail := ih (fun F hF => hS F (List.mem_cons_of_mem E hF))
    unfold doubleState at htail
    rw [htail]

theorem aggregateFrom_append (t : UnitTable) (T : List AggregatedIngredient)
    (Q1 Q2 : List IngredientOccurrence) :
    aggregateFrom t T (Q1 ++ Q2) = aggregateFrom t (aggregateFrom t T Q1) Q2 := by
  unfold aggregateFrom
  rw [List.foldl_append]

theorem aggregate_append (t : UnitTable) (Q1 Q2 : List IngredientOccurrence) :
    aggregate t (Q1 ++ Q2) = aggregateFrom t (aggregate t Q1) Q2 := by
  unfold aggregate
  exact aggregateFrom_append t [] Q1 Q2

theorem double_pass (t : UnitTable) (r : RecipeId) (Q : List IngredientOccurrence)
    (hn : occsNum Q) (hr : occsRef Q r) :
    aggregateFrom t (aggregate t Q) Q = addStates (aggregate t Q) (aggregate t Q) := by
  have h := fold_double t r Q []
    (fun E hE => absurd hE (List.not_mem_nil E)) hn hr
    (fun E hE => absurd hE (List.not_mem_nil E))
  rw [addStates_nil_right] at h
  exact h

/-- C5 (amended: all quantities numeric): aggregating the same recipe twice
yields exactly the doubled quantities per ingredient, and the sources of
every entry still reference the recipe id exactly once. -/
theorem c5_double_recipe (t : UnitTable) (rid : RecipeId)
    (items : List (List Nat × Quantity))
    (hnum : ∀ p ∈ items, qIsNum p.2 = true) :
    aggregateRecipes t [(rid, items), (rid, items)] =
      doubleState (aggregateRecipes t [(rid, items)]) ∧
    ∀ E ∈ aggregateRecipes t [(rid, items), (rid, items)], E.sources = [rid] := by
  have hflat2 : (([((rid, items) : Recipe), ((rid, items) : Recipe)]).map
      occurrencesOf).flatten =
      occurrencesOf (rid, items) ++ occurrencesOf (rid, items) := by
    simp
  have hflat1 : ([((rid, items) : Recipe)].map occurrencesOf).flatten =
      occurrencesOf (rid, items) := by
    simp
  have hosnum : occsNum (occurrencesOf (rid, items)) := by
    intro o hoo
    unfold occurrencesOf at hoo
    rw [List.mem_map] at hoo
    obtain ⟨p, hp, hpo⟩ := hoo
    rw [← hpo]
    exact hnum p hp
  have hosref : occsRef (occurrencesOf (rid, items)) rid := by
    intro o hoo
    unfold occurrencesOf at hoo
    rw [List.mem_map] at hoo
    obtain ⟨p, hp, hpo⟩ := hoo
    rw [← hpo]
  have hnumS : stateNum (aggregate t (occurrencesOf (rid, items))) :=
    fold_num t _ [] (fun E hE => absurd hE (List.not_mem_nil E)) hosnum
  constructor
  · unfold aggregateRecipes
    rw [hflat2, hflat1]
    rw [aggregate_append]
    rw [double_pass t rid (occurrencesOf (rid, items)) hosnum hosref]
    exact addStates_self_double (aggregate t (occurrencesOf (rid, items))) hnumS
  · unfold aggregateRecipes
    rw [hflat2]
    exact fold_src t rid (occurrencesOf (rid, items) ++ occurrencesOf (rid, items)) []
      (fun E hE => absurd hE (List.not_mem_nil E))
      (fun o hoo => by
        rcases List.mem_append.mp hoo with h | h
        · exact hosref o h
        · exact hosref o h)

/-- Witness input for C5 (amended): one salt item of 1 tsp. -/
def saltItems : List (List Nat × Quantity) :=
  [([115, 97, 108, 116], ⟨Value.num 1, some "tsp"⟩)]

/-- Witness for C5 (amended) at the one-item salt recipe. -/
theorem c5_double_recipe_witness :
    aggregateRecipes [] [("r", saltItems), ("r", saltItems)] =
      doubleState (aggregateRecipes [] [("r", saltItems)]) ∧
    ∀ E ∈ aggregateRecipes [] [("r", saltItems), ("r", saltItems)], E.sources = ["r"] :=
  c5_double_recipe [] "r" saltItems (by
    intro p hp
    rw [saltItems, List.mem_singleton] at hp
    subst hp
    rfl)

/-- The table of the C5 counterexample: only tsp is known. -/
def tspTable : UnitTable := [("tsp", ("volume", 1))]

/-- The C5 counterexample recipe: 1 tsp salt, then 1 "blob" (opaque unit)
salt, then salt "to taste". -/
def saltRecipe : Recipe :=
  ("r", [([115, 97, 108, 116], ⟨Value.num 1, some "tsp"⟩),
         ([115, 97, 108, 116], ⟨Value.num 1, some "blob"⟩),
         ([115, 97, 108, 116], ⟨Value.unspecified, none⟩)])

/-- Counterexample to C5 as stated: for the salt recipe mixing an opaque
unit with a "to taste" quantity, aggregating the recipe twice returns the
same state as aggregating it once — the opaque-unit group stays at 1
instead of doubling, because the unspecified group absorbs the second
pass's occurrences. -/
theorem c5_counterexample :
    aggregateRecipes tspTable [saltRecipe] =
      [⟨[115, 97, 108, 116], [⟨Value.unspecified, none⟩, ⟨Value.num 1, some "blob"⟩],
        ["r"]⟩] ∧
    aggregateRecipes tspTable [saltRecipe, saltRecipe] =
      [⟨[115, 97, 108, 116], [⟨Value.unspecified, none⟩, ⟨Value.num 1, some "blob"⟩],
        ["r"]⟩] ∧
    aggregateRecipes tspTable [saltRecipe, saltRecipe] ≠
      doubleState (aggregateRecipes tspTable [saltRecipe]) := by
  have h1 : aggregateRecipes tspTable [saltRecipe] =
      [⟨[115, 97, 108, 116], [⟨Value.unspecified, none⟩, ⟨Value.num 1, some "blob"⟩],
        ["r"]⟩] := by
    norm_num +decide [aggregateRecipes, aggregate, aggregateFrom, occurrencesOf,
      addOccurrence, mergeQuantity, try_add, resolveUnit, addSource, tspTable, saltRecipe]
  have h2 : aggregateRecipes tspTable [saltRecipe, saltRecipe] =
      [⟨[115, 97, 108, 116], [⟨Value.unspecified, none⟩, ⟨Value.num 1, some "blob"⟩],
        ["r"]⟩] := by
    norm_num +decide [aggregateRecipes, aggregate, aggregateFrom, occurrencesOf,
      addOccurrence, mergeQuantity, try_add, resolveUnit, addSource, tspTable, saltRecipe]
  have h3 : doubleState
      [⟨[115, 97, 108, 116], [⟨Value.unspecified, none⟩, ⟨Value.num 1, some "blob"⟩],
        ["r"]⟩] =
      [⟨[115, 97, 108, 116], [⟨Value.unspecified, none⟩, ⟨Value.num 2, some "blob"⟩],
        ["r"]⟩] := by
    norm_num [doubleState, doubleEntry, doubleQ]
  refine ⟨h1, h2, ?_⟩
  rw [h1, h2, h3]
  decide

end CookCLI
